import Mathlib

/-!
# Verification of the IniLib INI-file library

Shallow embedding of `IniLib.cpp` / `IniLib.h` / `IniValueConvert.h`.

`std::string` is modelled as a list of bytes (`List Nat`), since the C++
code manipulates raw `char`s (`std::tolower` is applied to `unsigned char`).
`std::vector<std::string>` (the payload of `IniValue`) is a `List Str`.
The `std::unordered_map`s inside `IniSection` and `IniFile` are modelled as
association lists holding the map's entries in some enumeration order;
`lookupA`/`insertA` give the map's find / `operator[]`-assign semantics.
File I/O is modelled by the file's byte content; the "can the file be
opened" condition of `load`/`save` is an explicit boolean parameter.

All functions are direct translations of the corresponding C++ functions
and keep their source names (`IniFile.trim`, `IniFile.toLower`,
`IniFile.removeComment`, `IniFile.split`, `IniValue.getString`,
`IniValue.join`, `IniSection.set`, `IniFile.load`, `IniFile.save`, ...).
-/

/-- A C++ `std::string`: a sequence of bytes (`char` read as
`unsigned char`, hence a `Nat` below 256; the definitions do not depend
on the bound). -/
abbrev Str := List Nat

/-- Helper to write byte-string literals in statements: the ASCII bytes of
a Lean string literal. -/
def strB (s : String) : Str := s.data.map Char.toNat

/-- The whitespace set of `IniFile::trim` (`" \t\n\r"`):
space 32, tab 9, LF 10, CR 13. -/
def isWsB (b : Nat) : Bool := b == 32 || b == 9 || b == 10 || b == 13

/-- `std::tolower` in the default C locale on an `unsigned char`:
bytes 65–90 (`A`–`Z`) are shifted to 97–122 (`a`–`z`), all other
bytes are returned unchanged. -/
def toLowerB (b : Nat) : Nat := if 65 ≤ b ∧ b ≤ 90 then b + 32 else b

/-- First index at which the predicate holds (`std::string::find`, with
`none` for `npos`). -/
def findIdxO (p : Nat → Bool) : Str → Option Nat
  | [] => none
  | c :: t => if p c then some 0 else (findIdxO p t).map (· + 1)

/-- `std::min` on `size_t` positions where `none` plays `npos`
(the largest value). -/
def minNpos : Option Nat → Option Nat → Option Nat
  | none, b => b
  | some a, none => some a
  | some a, some b => some (min a b)

/-- One pass of the `std::getline(stream, item, delim)` loop, carrying the
(reversed) bytes of the chunk read so far.  `getline` consumes up to and
including the delimiter; it fails (ending the loop) only when the stream
is already exhausted before any byte is read. -/
def getlineGo (delim : Nat) (acc : Str) : Str → List Str
  | [] => [acc.reverse]
  | c :: rest =>
    if c = delim then
      match rest with
      | [] => [acc.reverse]
      | _ :: _ => acc.reverse :: getlineGo delim [] rest
    else getlineGo delim (c :: acc) rest

/-- All chunks produced by a `while (std::getline(stream, item, delim))`
loop over the given content. -/
def getlineSplit (delim : Nat) (s : Str) : List Str :=
  match s with
  | [] => []
  | _ :: _ => getlineGo delim [] s

/-- `std::unordered_map::find`: the entry stored under `k`, if any.
The association list holds at most one entry per key. -/
def lookupA {α : Type} (m : List (Str × α)) (k : Str) : Option α :=
  match m with
  | [] => none
  | (k₁, v) :: t => if k₁ = k then some v else lookupA t k

/-- `std::unordered_map` assignment `m[k] = v` (or `m[k]` default-insert
followed by overwriting the mapped value): replaces the entry in place if
present, otherwise adds one. -/
def insertA {α : Type} (m : List (Str × α)) (k : Str) (v : α) : List (Str × α) :=
  match m with
  | [] => [(k, v)]
  | (k₁, v₁) :: t => if k₁ = k then (k, v) :: t else (k₁, v₁) :: insertA t k v

namespace IniLib

/-- The payload of class `IniValue`: its `std::vector<std::string> values`. -/
abbrev IniValue := List Str

/-- `IniSection::keyValues : std::unordered_map<std::string, IniValue>`. -/
abbrev IniSection := List (Str × IniValue)

/-- `IniFile::sections : std::unordered_map<std::string, IniSection>`. -/
abbrev IniFile := List (Str × IniSection)

/-- `IniValue::join(vec, delimiter)`: writes `vec[0] << delim << vec[1]
<< delim << ...` to a string stream. -/
def IniValue.join : List Str → Str → Str
  | [], _ => []
  | [v], _ => v
  | v :: rest, d => v ++ d ++ IniValue.join rest d

/-- `IniValue::getString()`: empty string for no values, the single value
for one, otherwise the values joined with `", "` (bytes 44, 32). -/
def IniValue.getString : IniValue → Str
  | [] => []
  | [v] => v
  | vs => IniValue.join vs [44, 32]

/-- `IniFile::trim(str)`: removes the characters of `" \t\n\r"` from both
ends (via `find_first_not_of` / `find_last_not_of` and `substr`); a string
of only whitespace becomes empty. -/
def IniFile.trim (s : Str) : Str :=
  ((s.dropWhile isWsB).reverse.dropWhile isWsB).reverse

/-- `IniFile::toLower(str)`: `std::tolower` applied to every byte. -/
def IniFile.toLower (s : Str) : Str := s.map toLowerB

/-- `IniFile::removeComment(str)`: truncates at
`std::min(str.find(';'), str.find('#'))` (bytes 59 and 35); unchanged when
neither occurs. -/
def IniFile.removeComment (s : Str) : Str :=
  match minNpos (findIdxO (fun c => c == 59) s) (findIdxO (fun c => c == 35) s) with
  | some p => s.take p
  | none => s

/-- `IniFile::split(str, delimiter)`: `std::getline` chunks of `str`, each
chunk trimmed. -/
def IniFile.split (s : Str) (delim : Nat) : List Str :=
  (getlineSplit delim s).map IniFile.trim

/-- `IniSection::get(key, defaultValue)`: find under the lower-cased key,
default if absent. -/
def IniSection.get (sec : IniSection) (key : Str) (defaultValue : IniValue) : IniValue :=
  (lookupA sec (IniFile.toLower key)).getD defaultValue

/-- `IniSection::set(key, value)`: `keyValues[toLower(key)] = value`. -/
def IniSection.set (sec : IniSection) (key : Str) (value : IniValue) : IniSection :=
  insertA sec (IniFile.toLower key) value

/-- `IniSection::hasKey(key)`. -/
def IniSection.hasKey (sec : IniSection) (key : Str) : Bool :=
  (lookupA sec (IniFile.toLower key)).isSome

/-- `IniSection::keyCount()`. -/
def IniSection.keyCount (sec : IniSection) : Nat := sec.length

/-- `IniFile::get(section, key, defaultValue)`. -/
def IniFile.get (d : IniFile) (sect : Str) (key : Str) (defaultValue : IniValue) : IniValue :=
  match lookupA d (IniFile.toLower sect) with
  | some sec => sec.get key defaultValue
  | none => defaultValue

/-- `IniFile::set(section, key, value)`:
`sections[toLower(section)].set(key, value)` — the map's `operator[]`
default-inserts an empty section when absent. -/
def IniFile.set (d : IniFile) (sect : Str) (key : Str) (value : IniValue) : IniFile :=
  insertA d (IniFile.toLower sect)
    (IniSection.set ((lookupA d (IniFile.toLower sect)).getD []) key value)

/-- `IniFile::hasSection(section)`. -/
def IniFile.hasSection (d : IniFile) (sect : Str) : Bool :=
  (lookupA d (IniFile.toLower sect)).isSome

/-- `IniFile::hasKey(section, key)`. -/
def IniFile.hasKey (d : IniFile) (sect : Str) (key : Str) : Bool :=
  match lookupA d (IniFile.toLower sect) with
  | some sec => sec.hasKey key
  | none => false

/-- `IniFile::clearSection(section)`: `sections[toLower(section)].clear()`
— default-inserts the section when absent, then empties it. -/
def IniFile.clearSection (d : IniFile) (sect : Str) : IniFile :=
  insertA d (IniFile.toLower sect) []

/-- `IniFile::keyCount(section)`: the section's key count, `0` when the
section is absent. -/
def IniFile.keyCount (d : IniFile) (sect : Str) : Nat :=
  match lookupA d (IniFile.toLower sect) with
  | some sec => sec.keyCount
  | none => 0

/-- `IniFile::sectionCount()`. -/
def IniFile.sectionCount (d : IniFile) : Nat := d.length

/-- The body of `IniFile::load`'s `while (std::getline(file, line))` loop
for one raw line, acting on the state (current section name, sections map):
strip comment, trim; skip empty lines; a line with first byte `[` (91) and
last byte `]` (93) updates the current section name to the lower-cased
trimmed inner text; otherwise a line is split at the first `=` (61) into a
trimmed lower-cased key and a trimmed value split on `,` (44), stored via
`sections[currentSection].set(key, values)`; a line without `=` is
skipped. -/
def IniFile.loadLine (st : Str × IniFile) (raw : Str) : Str × IniFile :=
  let line := IniFile.trim (IniFile.removeComment raw)
  if line = [] then st
  else if line.head? = some 91 ∧ line.getLast? = some 93 then
    (IniFile.toLower (IniFile.trim ((line.drop 1).dropLast)), st.2)
  else
    match findIdxO (fun c => c == 61) line with
    | some pos =>
      let key := IniFile.toLower (IniFile.trim (line.take pos))
      let value := IniFile.trim (line.drop (pos + 1))
      let values := IniFile.split value 44
      (st.1, insertA st.2 st.1 (IniSection.set ((lookupA st.2 st.1).getD []) key values))
    | none => st

/-- All loop iterations of `IniFile::load` over a list of raw lines. -/
def IniFile.loadLines (st : Str × IniFile) (ls : List Str) : Str × IniFile :=
  ls.foldl IniFile.loadLine st

/-- `IniFile::load` on an openable file with the given byte content,
starting from an empty `IniFile` and the default-constructed current
section name `""`: the lines are the `std::getline(file, line)` chunks. -/
def IniFile.loadString (content : Str) : IniFile :=
  (IniFile.loadLines ([], []) (getlineSplit 10 content)).2

/-- `IniFile::load(filename)` with an explicit "file could be opened"
condition: `none` models the `return false` path (nothing parsed),
otherwise the parsed document. -/
def IniFile.load (canOpen : Bool) (content : Str) : Option IniFile :=
  if canOpen then some (IniFile.loadString content) else none

/-- The bytes `IniFile::save` writes for one key: `key << "=" << value
string << "\n"`. -/
def keyChunk (kv : Str × IniValue) : Str :=
  kv.1 ++ 61 :: (IniValue.getString kv.2 ++ [10])

/-- The bytes `IniFile::save` writes for one section: `"[" << name <<
"]\n"`, each key line, then a blank line. -/
def sectionChunk (p : Str × IniSection) : Str :=
  91 :: (p.1 ++ 93 :: 10 :: ((p.2.map keyChunk).flatten ++ [10]))

/-- The full byte content `IniFile::save` writes, iterating the sections
map in its enumeration order. -/
def IniFile.saveString (d : IniFile) : Str :=
  (d.map sectionChunk).flatten

/-- `IniFile::save(filename)` with an explicit "file could be opened"
condition: `none` models the `return false` path (nothing written). -/
def IniFile.save (canOpen : Bool) (d : IniFile) : Option Str :=
  if canOpen then some (IniFile.saveString d) else none

/-- `IniValue::getAs<T>()`: throws (`none`) on an empty value, otherwise
decodes element 0 with type `T`'s converter (which itself may throw). -/
def IniValue.getAs {τ : Type} (dec : Str → Option τ) : IniValue → Option τ
  | [] => none
  | v :: _ => dec v

/-- `IniValueConvert<bool>::decode`. -/
def boolDecode (value : Str) : Option Bool :=
  if value = strB "true" ∨ value = strB "1" then some true
  else if value = strB "false" ∨ value = strB "0" then some false
  else none

/-- `IniValueConvert<bool>::encode`. -/
def boolEncode (value : Bool) : Str :=
  if value then strB "true" else strB "false"

/-- `IniValueConvert<char>::decode`: requires length exactly 1. -/
def charDecode (value : Str) : Option Nat :=
  match value with
  | [c] => some c
  | _ => none

/-- `IniValueConvert<char>::encode`: `std::string(1, value)`. -/
def charEncode (value : Nat) : Str := [value]

/-- `IniValueConvert<std::string>::decode` (identity). -/
def stringDecode (value : Str) : Option Str := some value

/-- `IniValueConvert<std::string>::encode` (identity). -/
def stringEncode (value : Str) : Str := value

/-- The digit value of a byte in `std::strtol` (`0`–`9`, `a`–`z`,
`A`–`Z`), accepted when below the base. -/
def digitVal (base : Nat) (b : Nat) : Option Nat :=
  let v : Option Nat :=
    if 48 ≤ b ∧ b ≤ 57 then some (b - 48)
    else if 97 ≤ b ∧ b ≤ 122 then some (b - 87)
    else if 65 ≤ b ∧ b ≤ 90 then some (b - 55)
    else none
  match v with
  | some v₁ => if v₁ < base then some v₁ else none
  | none => none

/-- `std::isspace` in the default C locale: space and bytes 9–13. -/
def isSpaceByte (b : Nat) : Bool := b == 32 || (9 ≤ b && b ≤ 13)

/-- The core of `std::stoi`/`std::stol` `(value, &idx, 0)` (`strtol` with base
auto-detection): skip whitespace, optional sign, then `0x`/`0X` followed
by a hex digit selects base 16, a leading `0` selects base 8, anything
else base 10; consumes the longest run of digits of that base.  Returns
the signed value and the number of bytes consumed (`idx`), or `none` when
no digits could be consumed (`std::invalid_argument`). -/
def stoiCore (s : Str) : Option (Int × Nat) :=
  let afterWs := s.dropWhile isSpaceByte
  let wsCount := s.length - afterWs.length
  let (sign, signCount, afterSign) : Int × Nat × Str :=
    match afterWs with
    | 43 :: t => (1, 1, t)
    | 45 :: t => (-1, 1, t)
    | t => (1, 0, t)
  let (base, baseCount, afterBase) : Nat × Nat × Str :=
    match afterSign with
    | 48 :: x :: c :: t =>
      if (x = 120 ∨ x = 88) ∧ (digitVal 16 c).isSome then (16, 2, c :: t)
      else (8, 0, 48 :: x :: c :: t)
    | t₁ =>
      match t₁ with
      | 48 :: _ => (8, 0, t₁)
      | _ => (10, 0, t₁)
  let digits := afterBase.takeWhile (fun b => (digitVal base b).isSome)
  if digits = [] then none
  else
    let value := digits.foldl (fun acc b => acc * base + (digitVal base b).getD 0) 0
    some (sign * (value : Int), wsCount + signCount + baseCount + digits.length)

/-- `IniValueConvert<int>::decode`: `std::stoi(value, &idx, 0)`; fails on
no digits, on trailing characters (`idx != value.size()`), and when the
value exceeds the range of a 32-bit `int` (`std::out_of_range`). -/
def intDecode (value : Str) : Option Int :=
  match stoiCore value with
  | some (v, idx) =>
    if idx = value.length ∧ -(2 ^ 31) ≤ v ∧ v < 2 ^ 31 then some v else none
  | none => none

/-- `IniValueConvert<int>::encode`: `std::to_string` (canonical decimal). -/
def intEncode (value : Int) : Str := strB (toString value)

/-- `IniValueConvert<short>::decode`: `std::stoi(value, &idx, 0)` followed
by `static_cast<short>` (wrap-around to 16 bits, two's complement). -/
def shortDecode (value : Str) : Option Int :=
  match intDecode value with
  | some v => some (((v + 2 ^ 15) % 2 ^ 16 + 2 ^ 16) % 2 ^ 16 - 2 ^ 15)
  | none => none

/-- `IniValueConvert<short>::encode`: `std::to_string`. -/
def shortEncode (value : Int) : Str := strB (toString value)

/-- `IniValueConvert<long>::decode`: `std::stol(value, &idx, 0)`; same
`strtol` core as `int`, failing on no digits, on trailing characters
(`idx != value.size()`), and when the value exceeds the range of `long`
(64 bits on an LP64 platform, `std::out_of_range`). -/
def longDecode (value : Str) : Option Int :=
  match stoiCore value with
  | some (v, idx) =>
    if idx = value.length ∧ -(2 ^ 63) ≤ v ∧ v < 2 ^ 63 then some v else none
  | none => none

/-- `IniValueConvert<long>::encode`: `std::to_string` (canonical
decimal). -/
def longEncode (value : Int) : Str := strB (toString value)

/-- `IniValueConvert<const char*>::decode`: `value.c_str()` — the same
byte content, viewed as a C string. -/
def constCharDecode (value : Str) : Option Str := some value

/-- `IniValueConvert<const char*>::encode`: `std::string(value)` —
identity on the byte content. -/
def constCharEncode (value : Str) : Str := value

end IniLib

/-! ## Spec-side definitions

These translate the *spec's words* (used to compare against the
implementation above): the line decomposition of a saved document and the
comma-joined value text of claim C1. -/

namespace IniLib

/-- Spec-side: join a list of byte strings with a separator
(`List.intercalate`). -/
def joinSep (sep : Str) (vs : List Str) : Str := List.intercalate sep vs

/-- Spec-side (claim C1 as stated): a key line `key=v1,v2,...` with the
value elements joined with `,` (byte 44) and no extra spacing. -/
def keyLineClaimed (kv : Str × IniValue) : Str :=
  kv.1 ++ 61 :: joinSep [44] kv.2

/-- Spec-side (claim C1 as stated): the whole saved content with values
joined with `,` and no extra spacing. -/
def saveClaimed (d : IniFile) : Str :=
  (d.map (fun p =>
    91 :: (p.1 ++ 93 :: 10 :: ((p.2.map (fun kv => keyLineClaimed kv ++ [10])).flatten ++ [10])))).flatten

/-- Spec-side: the lines a saved section should consist of — the `[name]`
header, one `key=` line per key whose value text is the elements joined
with `", "` (bytes 44, 32), and a trailing blank line. -/
def sectionLines (p : Str × IniSection) : List Str :=
  (91 :: (p.1 ++ [93])) :: (p.2.map (fun kv => kv.1 ++ 61 :: joinSep [44, 32] kv.2) ++ [[]])

/-- Spec-side: the line decomposition of a whole saved document. -/
def saveLinesSpec (d : IniFile) : List Str :=
  (d.map sectionLines).flatten

end IniLib

/-! ## Well-formedness predicates for the round-trip claims -/

namespace IniLib

/-- Both ends of the string are free of the whitespace bytes of
`IniFile::trim` (vacuously true for the empty string). -/
abbrev noWsEnds (s : Str) : Prop :=
  (∀ c ∈ s.head?, isWsB c = false) ∧ (∀ c ∈ s.getLast?, isWsB c = false)

/-- Bytes forbidden in a round-trip-safe value element:
`,` 44, `;` 59, `#` 35, `[` 91, `]` 93, LF 10, CR 13. -/
def elemBad (b : Nat) : Bool :=
  b == 44 || b == 59 || b == 35 || b == 91 || b == 93 || b == 10 || b == 13

/-- Bytes forbidden in a round-trip-safe section or key name: the element
set plus `=` 61. -/
def nameBad (b : Nat) : Bool := elemBad b || b == 61

/-- A value element that survives a save/load round trip: non-empty, no
leading/trailing whitespace, and free of the delimiter/comment/bracket
bytes. -/
abbrev goodElem (e : Str) : Prop :=
  e ≠ [] ∧ noWsEnds e ∧ (∀ c ∈ e, elemBad c = false)

/-- A stored (already lower-cased) section or key name that survives a
round trip. -/
abbrev goodName (n : Str) : Prop :=
  IniFile.toLower n = n ∧ noWsEnds n ∧ (∀ c ∈ n, nameBad c = false)

/-- A well-formed stored section: distinct keys, at least one key, and
every key/element round-trip-safe. -/
abbrev goodSec (sec : IniSection) : Prop :=
  (sec.map Prod.fst).Nodup ∧ sec ≠ [] ∧
    ∀ kv ∈ sec, goodName kv.1 ∧ ∀ e ∈ kv.2, goodElem e

/-- A well-formed document: distinct section names, every section
well-formed. -/
abbrev goodDoc (d : IniFile) : Prop :=
  (d.map Prod.fst).Nodup ∧ ∀ p ∈ d, goodName p.1 ∧ goodSec p.2

/-- Raw (already-normalized) lookup of the stored value sequence of a key
in a section of the document. -/
def getValRaw (d : IniFile) (s k : Str) : Option IniValue :=
  (lookupA d s).bind (fun sec => lookupA sec k)

instance goodDocDecidable (d : IniFile) : Decidable (goodDoc d) := by
  have h₁ : Decidable ((List.map Prod.fst d).Nodup) := inferInstance
  have h₂ : Decidable (∀ p ∈ d, goodName p.1 ∧ goodSec p.2) := inferInstance
  unfold goodDoc
  exact @instDecidableAnd _ _ h₁ h₂

end IniLib

/-! ## Basic lemmas: association lists, `trim`, `toLower`, comments -/

namespace IniLib

theorem lookupA_insertA_self {α : Type} (m : List (Str × α)) (k : Str) (v : α) :
    lookupA (insertA m k v) k = some v := by
  induction m with
  | nil => simp [insertA, lookupA]
  | cons p t ih =>
    obtain ⟨k₁, v₁⟩ := p
    by_cases h : k₁ = k <;> simp [insertA, lookupA, h, ih]

theorem lookupA_insertA_ne {α : Type} (m : List (Str × α)) {k k₂ : Str} (v : α)
    (h : k₂ ≠ k) : lookupA (insertA m k v) k₂ = lookupA m k₂ := by
  induction m with
  | nil => simp [insertA, lookupA, Ne.symm h]
  | cons p t ih =>
    obtain ⟨k₁, v₁⟩ := p
    by_cases h₁ : k₁ = k
    · subst h₁
      simp [insertA, lookupA, Ne.symm h]
    · by_cases h₂ : k₁ = k₂ <;> simp [insertA, lookupA, h₁, h₂, h, ih]

theorem toLowerB_idem (b : Nat) : toLowerB (toLowerB b) = toLowerB b := by
  unfold toLowerB
  by_cases h : 65 ≤ b ∧ b ≤ 90
  · have h₂ : ¬(65 ≤ b + 32 ∧ b + 32 ≤ 90) := by omega
    rw [if_pos h, if_neg h₂]
  · rw [if_neg h, if_neg h]

theorem toLower_idem (s : Str) : IniFile.toLower (IniFile.toLower s) = IniFile.toLower s := by
  unfold IniFile.toLower
  rw [List.map_map]
  exact List.map_congr_left (fun b _ => toLowerB_idem b)

theorem trim_nil : IniFile.trim [] = [] := rfl

/-- A string with whitespace-free ends is unchanged by `IniFile::trim`. -/
theorem trim_eq_self {s : Str} (h : noWsEnds s) : IniFile.trim s = s := by
  obtain ⟨h₁, h₂⟩ := h
  unfold IniFile.trim
  have e₁ : s.dropWhile isWsB = s := by
    cases s with
    | nil => rfl
    | cons c t =>
      have := h₁ c (by simp)
      simp [List.dropWhile, this]
  rw [e₁]
  have e₂ : s.reverse.dropWhile isWsB = s.reverse := by
    cases hr : s.reverse with
    | nil => rfl
    | cons c t =>
      have hc : s.getLast? = some c := by
        rw [← List.head?_reverse, hr]
        rfl
      have := h₂ c hc
      simp [List.dropWhile, this]
  rw [e₂, List.reverse_reverse]

/-- `IniFile::trim` ignores a leading whitespace byte. -/
theorem trim_ws_cons (c : Nat) (s : Str) (h : isWsB c = true) :
    IniFile.trim (c :: s) = IniFile.trim s := by
  unfold IniFile.trim
  simp [List.dropWhile, h]

theorem findIdxO_eq_none {p : Nat → Bool} {s : Str}
    (h : ∀ c ∈ s, p c = false) : findIdxO p s = none := by
  induction s with
  | nil => rfl
  | cons c t ih =>
    have hc := h c (by simp)
    simp [findIdxO, hc, ih (fun b hb => h b (by simp [hb]))]

/-- The first position of a byte satisfying `p` in `l ++ a :: t` where no
byte of `l` satisfies `p` and `a` does. -/
theorem findIdxO_append {p : Nat → Bool} {l : Str} {a : Nat} (t : Str)
    (hl : ∀ c ∈ l, p c = false) (ha : p a = true) :
    findIdxO p (l ++ a :: t) = some l.length := by
  induction l with
  | nil => simp [findIdxO, ha]
  | cons c l₁ ih =>
    have hc := hl c (by simp)
    simp [findIdxO, hc, ih (fun b hb => hl b (by simp [hb]))]

/-- `std::string::find` of `;` and of `#` combined through `std::min` is
the first position of either byte. -/
theorem minNpos_findIdxO (p q : Nat → Bool) (s : Str) :
    minNpos (findIdxO p s) (findIdxO q s) = findIdxO (fun c => p c || q c) s := by
  induction s with
  | nil => rfl
  | cons c t ih =>
    simp only [findIdxO]
    by_cases hp : p c
    · by_cases hq : q c
      · simp [hp, hq, minNpos]
      · simp only [hp, hq, if_true, if_false, Bool.true_or]
        cases findIdxO q t <;> simp [minNpos, Nat.zero_min]
    · by_cases hq : q c
      · simp only [hp, hq, if_true, if_false, Bool.false_or]
        cases findIdxO p t <;> simp [minNpos, Nat.min_zero]
      · simp only [hp, hq, if_false, Bool.false_or]
        rw [← ih]
        cases findIdxO p t <;> cases findIdxO q t <;> simp [minNpos]
        omega

/-- A string without comment bytes is unchanged by
`IniFile::removeComment`. -/
theorem removeComment_eq_self {s : Str}
    (h : ∀ c ∈ s, (c == 59 || c == 35) = false) : IniFile.removeComment s = s := by
  unfold IniFile.removeComment
  rw [minNpos_findIdxO, findIdxO_eq_none h]

end IniLib

/-! ## `getline` splitting lemmas -/

theorem getlineGo_no_delim {d : Nat} {l : Str} (acc : Str) (h : d ∉ l) :
    getlineGo d acc l = [acc.reverse ++ l] := by
  induction l generalizing acc with
  | nil => simp [getlineGo]
  | cons c t ih =>
    have hc : ¬(c = d) := fun hh => h (by simp [hh])
    simp only [getlineGo, if_neg hc]
    rw [ih (c :: acc) (fun hm => h (by simp [hm]))]
    simp

theorem getlineGo_append {d : Nat} {l : Str} (acc rest : Str) (h : d ∉ l) :
    getlineGo d acc (l ++ d :: rest) = (acc.reverse ++ l) :: getlineSplit d rest := by
  induction l generalizing acc with
  | nil =>
    cases rest <;> simp [getlineGo, getlineSplit]
  | cons c t ih =>
    have hc : ¬(c = d) := fun hh => h (by simp [hh])
    have hsh : (c :: t) ++ d :: rest = c :: (t ++ d :: rest) := rfl
    rw [hsh]
    simp only [getlineGo, if_neg hc]
    rw [ih (c :: acc) (fun hm => h (by simp [hm]))]
    simp

theorem getlineSplit_cons_eq {d : Nat} {s : Str} (h : s ≠ []) :
    getlineSplit d s = getlineGo d [] s := by
  cases s with
  | nil => exact absurd rfl h
  | cons c t => rfl

theorem getlineSplit_append {d : Nat} {l : Str} (rest : Str) (h : d ∉ l) :
    getlineSplit d (l ++ d :: rest) = l :: getlineSplit d rest := by
  rw [getlineSplit_cons_eq (by simp), getlineGo_append [] rest h]
  simp

theorem getlineSplit_no_delim {d : Nat} {l : Str} (hne : l ≠ []) (h : d ∉ l) :
    getlineSplit d l = [l] := by
  rw [getlineSplit_cons_eq hne, getlineGo_no_delim [] h]
  simp

/-! ## Shape of the value text written by `save` -/

namespace IniLib

theorem getString_eq_join {vs : IniValue} (h : vs ≠ []) :
    IniValue.getString vs = IniValue.join vs [44, 32] := by
  cases vs with
  | nil => exact absurd rfl h
  | cons v t => cases t <;> rfl

theorem join_ne_nil {vs : IniValue} {d : Str} (hne : vs ≠ [])
    (h : ∀ v ∈ vs, v ≠ []) : IniValue.join vs d ≠ [] := by
  cases vs with
  | nil => exact absurd rfl hne
  | cons v t =>
    cases t with
    | nil => exact h v (by simp)
    | cons w t₁ =>
      simp only [IniValue.join]
      intro hz
      exact h v (by simp) (by simpa using (List.append_eq_nil.mp
        (List.append_eq_nil.mp hz).1).1)

theorem mem_join {c : Nat} {vs : IniValue} {d : Str} (h : c ∈ IniValue.join vs d) :
    (∃ v ∈ vs, c ∈ v) ∨ c ∈ d := by
  induction vs with
  | nil => simp [IniValue.join] at h
  | cons v t ih =>
    cases t with
    | nil =>
      simp only [IniValue.join] at h
      exact Or.inl ⟨v, by simp, h⟩
    | cons w t₁ =>
      simp only [IniValue.join, List.append_assoc, List.mem_append] at h
      rcases h with h₁ | h₂ | h₃
      · exact Or.inl ⟨v, by simp, h₁⟩
      · exact Or.inr h₂
      · rcases ih h₃ with ⟨v₁, hv₁, hc⟩ | hd
        · exact Or.inl ⟨v₁, by simp [hv₁], hc⟩
        · exact Or.inr hd

theorem mem_getString {c : Nat} {vs : IniValue} (h : c ∈ IniValue.getString vs) :
    (∃ v ∈ vs, c ∈ v) ∨ c = 44 ∨ c = 32 := by
  cases vs with
  | nil => simp [IniValue.getString] at h
  | cons v t =>
    rw [getString_eq_join (by simp)] at h
    rcases mem_join h with hv | hd
    · exact Or.inl hv
    · simpa using Or.inr (by simpa using hd)

theorem join_head? {v : Str} {t : List Str} {d : Str} (h : v ≠ []) :
    (IniValue.join (v :: t) d).head? = v.head? := by
  cases t with
  | nil => rfl
  | cons w t₁ =>
    simp only [IniValue.join, List.append_assoc]
    rw [List.head?_append]
    cases v with
    | nil => exact absurd rfl h
    | cons c cs => rfl

theorem join_getLast? {vs : IniValue} {d : Str} (hne : vs ≠ [])
    (h : ∀ v ∈ vs, v ≠ []) :
    ∃ w ∈ vs, (IniValue.join vs d).getLast? = w.getLast? := by
  induction vs with
  | nil => exact absurd rfl hne
  | cons v t ih =>
    cases t with
    | nil => exact ⟨v, by simp, rfl⟩
    | cons w t₁ =>
      obtain ⟨w₁, hw₁, he⟩ := ih (by simp) (fun x hx => h x (by simp [hx]))
      refine ⟨w₁, by simp [hw₁], ?_⟩
      have hjoin : IniValue.join (w :: t₁) d ≠ [] :=
        join_ne_nil (by simp) (fun x hx => h x (by simp [hx]))
      have h₂ : d ++ IniValue.join (w :: t₁) d ≠ [] := by
        intro hz
        exact hjoin (List.append_eq_nil.mp hz).2
      simp only [IniValue.join, List.append_assoc]
      rw [List.getLast?_append_of_ne_nil _ h₂, List.getLast?_append_of_ne_nil _ hjoin, he]

theorem getString_noWsEnds {vs : IniValue} (h : ∀ e ∈ vs, goodElem e) :
    noWsEnds (IniValue.getString vs) := by
  cases vs with
  | nil => exact ⟨by simp [IniValue.getString], by simp [IniValue.getString]⟩
  | cons v t =>
    rw [getString_eq_join (by simp)]
    constructor
    · rw [join_head? (h v (by simp)).1]
      exact ((h v (by simp)).2.1).1
    · obtain ⟨w, hw, he⟩ := @join_getLast? (v :: t) [44, 32]
        (by simp) (fun x hx => (h x hx).1)
      rw [he]
      exact ((h w hw).2.1).2

theorem not_mem_of_goodElem {e : Str} (h : goodElem e) {c : Nat}
    (hc : elemBad c = true) : c ∉ e := by
  intro hm
  have := h.2.2 c hm
  rw [this] at hc
  exact Bool.false_ne_true hc

/-! ## Splitting the saved value text recovers the value elements -/

theorem splitJoinSp {vs : IniValue} (h : ∀ e ∈ vs, goodElem e) (hne : vs ≠ []) :
    (getlineSplit 44 (32 :: IniValue.join vs [44, 32])).map IniFile.trim = vs := by
  induction vs with
  | nil => exact absurd rfl hne
  | cons e rest ih =>
    have he := h e (by simp)
    have h44 : (44 : Nat) ∉ (32 : Nat) :: e := by
      intro hm
      rcases List.mem_cons.mp hm with h₁ | h₂
      · omega
      · exact not_mem_of_goodElem he (by simp [elemBad]) h₂
    cases rest with
    | nil =>
      simp only [IniValue.join]
      rw [getlineSplit_no_delim (by simp) h44]
      simp only [List.map_cons, List.map_nil]
      rw [trim_ws_cons 32 e (by decide), trim_eq_self he.2.1]
    | cons w t =>
      have hsh : (32 : Nat) :: IniValue.join (e :: w :: t) [44, 32] =
          ((32 : Nat) :: e) ++ 44 :: (32 :: IniValue.join (w :: t) [44, 32]) := by
        simp [IniValue.join]
      rw [hsh, getlineSplit_append _ h44]
      simp only [List.map_cons]
      rw [trim_ws_cons 32 e (by decide), trim_eq_self he.2.1,
        ih (fun x hx => h x (by simp [hx])) (by simp)]

theorem split_getString {vs : IniValue} (h : ∀ e ∈ vs, goodElem e) :
    IniFile.split (IniValue.getString vs) 44 = vs := by
  cases vs with
  | nil => rfl
  | cons e rest =>
    unfold IniFile.split
    rw [getString_eq_join (by simp)]
    have he := h e (by simp)
    have h44 : (44 : Nat) ∉ e := not_mem_of_goodElem he (by simp [elemBad])
    cases rest with
    | nil =>
      simp only [IniValue.join]
      rw [getlineSplit_no_delim he.1 h44]
      simp [trim_eq_self he.2.1]
    | cons w t =>
      have hsh : IniValue.join (e :: w :: t) [44, 32] =
          e ++ 44 :: (32 :: IniValue.join (w :: t) [44, 32]) := by
        simp [IniValue.join]
      rw [hsh, getlineSplit_append _ h44]
      simp only [List.map_cons]
      rw [trim_eq_self he.2.1, splitJoinSp (fun x hx => h x (by simp [hx])) (by simp)]

end IniLib

/-! ## Processing of a single saved line by `load` -/

namespace IniLib

theorem elemBad_false_iff {c : Nat} : elemBad c = false ↔
    (c ≠ 44 ∧ c ≠ 59 ∧ c ≠ 35 ∧ c ≠ 91 ∧ c ≠ 93 ∧ c ≠ 10 ∧ c ≠ 13) := by
  simp [elemBad, and_assoc]

theorem nameBad_false_iff {c : Nat} : nameBad c = false ↔
    (elemBad c = false ∧ c ≠ 61) := by
  simp [nameBad]

/-- A saved `[name]` header line is taken back by `load` exactly to
"current section becomes `name`", with the sections map untouched. -/
theorem loadLine_header {n : Str} (hn : goodName n) (cs : Str) (d : IniFile) :
    IniFile.loadLine (cs, d) (91 :: (n ++ [93])) = (n, d) := by
  have hnb : ∀ c ∈ n, nameBad c = false := hn.2.2
  have hrc : IniFile.removeComment (91 :: (n ++ [93])) = 91 :: (n ++ [93]) := by
    apply removeComment_eq_self
    intro c hc
    rcases List.mem_cons.mp hc with h₁ | h₂
    · subst h₁; decide
    · rcases List.mem_append.mp h₂ with h₃ | h₄
      · have := (nameBad_false_iff.mp (hnb c h₃)).1
        have h₅ := elemBad_false_iff.mp this
        simp [Nat.ne_of_gt, h₅.2.1, h₅.2.2.1]
      · simp only [List.mem_singleton] at h₄; subst h₄; decide
  have hlast : (91 :: (n ++ [93])).getLast? = some 93 := by
    rw [show (91 : Nat) :: (n ++ [93]) = ((91 : Nat) :: n) ++ [93] by simp]
    exact List.getLast?_concat _
  have htr : IniFile.trim (91 :: (n ++ [93])) = 91 :: (n ++ [93]) := by
    apply trim_eq_self
    constructor
    · intro c hc
      simp only [List.head?_cons, Option.mem_def, Option.some.injEq] at hc
      subst hc; decide
    · intro c hc
      rw [hlast] at hc
      simp only [Option.mem_def, Option.some.injEq] at hc
      subst hc; decide
  simp only [IniFile.loadLine, hrc, htr]
  rw [if_neg (by simp), if_pos ⟨rfl, hlast⟩]
  simp only [List.drop_one, List.tail_cons, List.dropLast_concat]
  rw [trim_eq_self hn.2.1, hn.1]

/-- A saved `key=value` line is taken back by `load` exactly to storing the
original value sequence under the original key in the current section. -/
theorem loadLine_keyline {k : Str} {v : IniValue} (hk : goodName k)
    (hv : ∀ e ∈ v, goodElem e) (cs : Str) (d : IniFile) :
    IniFile.loadLine (cs, d) (k ++ 61 :: IniValue.getString v) =
      (cs, insertA d cs (IniSection.set ((lookupA d cs).getD []) k v)) := by
  set gs := IniValue.getString v with hgs
  have hkb : ∀ c ∈ k, nameBad c = false := hk.2.2
  have hgsWs : noWsEnds gs := getString_noWsEnds hv
  have hrc : IniFile.removeComment (k ++ 61 :: gs) = k ++ 61 :: gs := by
    apply removeComment_eq_self
    intro c hc
    rcases List.mem_append.mp hc with h₁ | h₂
    · have h₅ := elemBad_false_iff.mp (nameBad_false_iff.mp (hkb c h₁)).1
      simp [h₅.2.1, h₅.2.2.1]
    · rcases List.mem_cons.mp h₂ with h₃ | h₄
      · subst h₃; decide
      · rcases mem_getString h₄ with ⟨e, he, hce⟩ | h₅ | h₅
        · have h₆ := elemBad_false_iff.mp ((hv e he).2.2 c hce)
          simp [h₆.2.1, h₆.2.2.1]
        · subst h₅; decide
        · subst h₅; decide
  have hhead : ∀ c ∈ (k ++ 61 :: gs).head?, isWsB c = false := by
    intro c hc
    cases k with
    | nil =>
      simp only [List.nil_append, List.head?_cons, Option.mem_def,
        Option.some.injEq] at hc
      subst hc; decide
    | cons b t =>
      simp only [List.cons_append, List.head?_cons, Option.mem_def,
        Option.some.injEq] at hc
      subst hc
      exact hk.2.1.1 b rfl
  have hlastLine : ∀ c ∈ (k ++ 61 :: gs).getLast?, isWsB c = false := by
    intro c hc
    cases hv₀ : v with
    | nil =>
      have : gs = [] := by rw [hgs, hv₀]; rfl
      rw [this] at hc
      rw [List.getLast?_concat] at hc
      simp only [Option.mem_def, Option.some.injEq] at hc
      subst hc; decide
    | cons e t =>
      have hgne : gs ≠ [] := by
        rw [hgs, hv₀, getString_eq_join (by simp)]
        exact join_ne_nil (by simp) (fun x hx => (hv x (by rw [hv₀]; exact hx)).1)
      rw [show k ++ (61 : Nat) :: gs = (k ++ [(61 : Nat)]) ++ gs by simp] at hc
      rw [List.getLast?_append_of_ne_nil _ hgne] at hc
      exact hgsWs.2 c hc
  have htr : IniFile.trim (k ++ 61 :: gs) = k ++ 61 :: gs :=
    trim_eq_self ⟨hhead, hlastLine⟩
  have hnothdr : ¬((k ++ 61 :: gs).head? = some 91 ∧ (k ++ 61 :: gs).getLast? = some 93) := by
    rintro ⟨h₁, h₂⟩
    cases k with
    | nil => simp at h₁
    | cons b t =>
      simp only [List.cons_append, List.head?_cons, Option.some.injEq] at h₁
      have h₅ := elemBad_false_iff.mp (nameBad_false_iff.mp (hkb b (by simp))).1
      exact h₅.2.2.2.1 h₁
  have hfind : findIdxO (fun c => c == 61) (k ++ 61 :: gs) = some k.length := by
    apply findIdxO_append
    · intro c hc
      simpa using (nameBad_false_iff.mp (hkb c hc)).2
    · simp
  simp only [IniFile.loadLine, hrc, htr]
  rw [if_neg (by simp), if_neg hnothdr]
  rw [hfind]
  simp only
  rw [List.take_left, trim_eq_self hk.2.1, hk.1]
  rw [show (k ++ (61 : Nat) :: gs).drop (k.length + 1) = gs by
    rw [show k ++ (61 : Nat) :: gs = (k ++ [(61 : Nat)]) ++ gs by simp,
      show k.length + 1 = (k ++ [(61 : Nat)]).length by simp]
    exact List.drop_left _ _]
  rw [trim_eq_self hgsWs, hgs, split_getString hv]

/-- The blank line after each saved section leaves the `load` state
unchanged. -/
theorem loadLine_blank (st : Str × IniFile) : IniFile.loadLine st [] = st := rfl

end IniLib

/-! ## Line decomposition of the saved content -/

namespace IniLib

theorem intercalate_cons₂ (v w : Str) (t : List Str) (d : Str) :
    List.intercalate d (v :: w :: t) = v ++ d ++ List.intercalate d (w :: t) := by
  simp [List.intercalate, List.intersperse]

theorem join_eq_joinSep (vs : List Str) (d : Str) :
    IniValue.join vs d = joinSep d vs := by
  induction vs with
  | nil => simp [IniValue.join, joinSep, List.intercalate]
  | cons v t ih =>
    cases t with
    | nil => simp [IniValue.join, joinSep, List.intercalate]
    | cons w t₁ =>
      simp only [IniValue.join, joinSep] at *
      rw [ih, intercalate_cons₂]

theorem getString_eq_joinSep (vs : IniValue) :
    IniValue.getString vs = joinSep [44, 32] vs := by
  cases vs with
  | nil => simp [IniValue.getString, joinSep, List.intercalate]
  | cons v t =>
    rw [getString_eq_join (by simp), join_eq_joinSep]

/-- Concatenation of newline-terminated lines. -/
def linesJoined (ls : List Str) : Str := (ls.map (fun l => l ++ [10])).flatten

theorem keyChunk_eq (kv : Str × IniValue) :
    keyChunk kv = (kv.1 ++ 61 :: joinSep [44, 32] kv.2) ++ [10] := by
  unfold keyChunk
  rw [← getString_eq_joinSep]
  simp

theorem sectionChunk_eq_linesJoined (p : Str × IniSection) :
    sectionChunk p = linesJoined (sectionLines p) := by
  obtain ⟨n, sec⟩ := p
  unfold sectionChunk sectionLines linesJoined
  simp only [List.map_cons, List.map_append, List.flatten_cons, List.flatten_append,
    List.map_map]
  have hkeys : sec.map keyChunk =
      sec.map ((fun l => l ++ [10]) ∘ (fun kv => kv.1 ++ 61 :: joinSep [44, 32] kv.2)) := by
    apply List.map_congr_left
    intro kv _
    exact keyChunk_eq kv
  rw [hkeys]
  simp

theorem saveString_eq_linesJoined (d : IniFile) :
    IniFile.saveString d = linesJoined (saveLinesSpec d) := by
  induction d with
  | nil => rfl
  | cons p t ih =>
    unfold IniFile.saveString saveLinesSpec linesJoined at *
    simp only [List.map_cons, List.flatten_cons, List.map_append, List.flatten_append]
    rw [sectionChunk_eq_linesJoined p, ih]
    simp [linesJoined]

theorem getlineSplit_linesJoined {ls : List Str} (h : ∀ l ∈ ls, (10 : Nat) ∉ l)
    (tailC : Str) :
    getlineSplit 10 (linesJoined ls ++ tailC) = ls ++ getlineSplit 10 tailC := by
  induction ls with
  | nil => simp [linesJoined]
  | cons l t ih =>
    have hsh : linesJoined (l :: t) ++ tailC = l ++ 10 :: (linesJoined t ++ tailC) := by
      simp [linesJoined]
    rw [hsh, getlineSplit_append _ (h l (by simp)), ih (fun x hx => h x (by simp [hx]))]
    simp

theorem mem_joinSep {c : Nat} {vs : List Str} {d : Str}
    (h : c ∈ joinSep d vs) : (∃ v ∈ vs, c ∈ v) ∨ c ∈ d := by
  rw [← join_eq_joinSep] at h
  exact mem_join h

theorem sectionLines_no10 {p : Str × IniSection} (hn : goodName p.1)
    (hs : ∀ kv ∈ p.2, goodName kv.1 ∧ ∀ e ∈ kv.2, goodElem e) :
    ∀ l ∈ sectionLines p, (10 : Nat) ∉ l := by
  intro l hl
  unfold sectionLines at hl
  rcases List.mem_cons.mp hl with h₁ | h₂
  · subst h₁
    intro hm
    rcases List.mem_cons.mp hm with h₃ | h₄
    · omega
    · rcases List.mem_append.mp h₄ with h₅ | h₆
      · exact (elemBad_false_iff.mp (nameBad_false_iff.mp (hn.2.2 10 h₅)).1).2.2.2.2.2.1 rfl
      · simp only [List.mem_singleton] at h₆; omega
  · rcases List.mem_append.mp h₂ with h₃ | h₄
    · obtain ⟨kv, hkv, hleq⟩ := List.mem_map.mp h₃
      subst hleq
      intro hm
      rcases List.mem_append.mp (by simpa using hm) with h₅ | h₆
      · exact (elemBad_false_iff.mp
          (nameBad_false_iff.mp ((hs kv hkv).1.2.2 10 h₅)).1).2.2.2.2.2.1 rfl
      · rcases mem_joinSep h₆ with ⟨e, he, hce⟩ | hd
        · exact (elemBad_false_iff.mp
            (((hs kv hkv).2 e he).2.2 10 hce)).2.2.2.2.2.1 rfl
        · simp at hd
    · simp only [List.mem_singleton] at h₄
      subst h₄
      simp

/-- The `std::getline` line decomposition of the bytes written by
`IniFile::save` on a well-formed document: exactly the header, key and
blank lines, in order. -/
theorem getlineSplit_saveString {d : IniFile} (h : ∀ p ∈ d, goodName p.1 ∧ goodSec p.2) :
    getlineSplit 10 (IniFile.saveString d) = saveLinesSpec d := by
  rw [saveString_eq_linesJoined]
  have h10 : ∀ l ∈ saveLinesSpec d, (10 : Nat) ∉ l := by
    intro l hl
    unfold saveLinesSpec at hl
    obtain ⟨ls, hls, hlmem⟩ := List.mem_flatten.mp hl
    obtain ⟨p, hp, hpe⟩ := List.mem_map.mp hls
    subst hpe
    exact sectionLines_no10 (h p hp).1 (fun kv hkv => (h p hp).2.2.2 kv hkv) l hlmem
  have := getlineSplit_linesJoined h10 []
  simpa [getlineSplit] using this

end IniLib

/-! ## Reconstruction of the document by `load` -/

namespace IniLib

/-- The section contents built by re-applying `IniSection::set` for every
saved key, in order, on top of `s0`. -/
def secFold (s0 : IniSection) (sec : IniSection) : IniSection :=
  sec.foldl (fun s kv => IniSection.set s kv.1 kv.2) s0

/-- The document built by re-loading every saved section, in order. -/
def buildDoc (acc : IniFile) (d : IniFile) : IniFile :=
  d.foldl (fun a p => insertA a p.1 (secFold ((lookupA a p.1).getD []) p.2)) acc

theorem insertA_insertA {α : Type} (m : List (Str × α)) (k : Str) (v w : α) :
    insertA (insertA m k v) k w = insertA m k w := by
  induction m with
  | nil => simp [insertA]
  | cons p t ih =>
    obtain ⟨k₁, v₁⟩ := p
    by_cases h : k₁ = k
    · subst h; simp [insertA]
    · simp [insertA, h, ih]

theorem lookupA_eq_none_iff {α : Type} {m : List (Str × α)} {s : Str} :
    lookupA m s = none ↔ s ∉ m.map Prod.fst := by
  induction m with
  | nil => simp [lookupA]
  | cons p t ih =>
    obtain ⟨k₁, v₁⟩ := p
    by_cases h : k₁ = s
    · subst h; simp [lookupA]
    · simp [lookupA, h, ih, Ne.symm h]

theorem lookupA_mem {α : Type} {m : List (Str × α)} {s : Str} {v : α}
    (h : lookupA m s = some v) : (s, v) ∈ m := by
  induction m with
  | nil => simp [lookupA] at h
  | cons p t ih =>
    obtain ⟨k₁, v₁⟩ := p
    by_cases h₁ : k₁ = s
    · subst h₁
      have hv : v₁ = v := by simpa [lookupA] using h
      subst hv
      simp
    · simp only [lookupA, if_neg h₁] at h
      exact List.mem_cons_of_mem _ (ih h)

/-- Loading the saved key lines of one section performs the corresponding
`IniSection::set` calls on the current section, in order. -/
theorem loadLines_keys {sec : IniSection}
    (h : ∀ kv ∈ sec, goodName kv.1 ∧ ∀ e ∈ kv.2, goodElem e) (n : Str) (d : IniFile) :
    IniFile.loadLines (n, d) (sec.map (fun kv => kv.1 ++ 61 :: joinSep [44, 32] kv.2)) =
      (n, sec.foldl
        (fun acc kv => insertA acc n (IniSection.set ((lookupA acc n).getD []) kv.1 kv.2)) d) := by
  induction sec generalizing d with
  | nil => rfl
  | cons kv t ih =>
    simp only [List.map_cons, IniFile.loadLines, List.foldl_cons]
    rw [show kv.1 ++ (61 : Nat) :: joinSep [44, 32] kv.2 =
      kv.1 ++ (61 : Nat) :: IniValue.getString kv.2 by rw [getString_eq_joinSep]]
    rw [loadLine_keyline (h kv (by simp)).1 (h kv (by simp)).2 n d]
    exact ih (fun x hx => h x (by simp [hx])) _

/-- Re-ordering: performing the per-key document updates of one section is
the same as updating that section's entry once with the folded section. -/
theorem foldl_keys_insertA {sec : IniSection} (hne : sec ≠ []) (n : Str) (d : IniFile) :
    sec.foldl
      (fun acc kv => insertA acc n (IniSection.set ((lookupA acc n).getD []) kv.1 kv.2)) d =
      insertA d n (secFold ((lookupA d n).getD []) sec) := by
  induction sec generalizing d with
  | nil => exact absurd rfl hne
  | cons kv t ih =>
    cases t with
    | nil => rfl
    | cons kw t₁ =>
      rw [List.foldl_cons, ih (by simp) _, lookupA_insertA_self, insertA_insertA]
      simp [secFold]

/-- Loading all the lines saved for one well-formed section from any state:
the current section becomes the section's name and its keys are set. -/
theorem loadLines_section {n : Str} {sec : IniSection} (hn : goodName n)
    (hs : goodSec sec) (cs : Str) (d : IniFile) :
    IniFile.loadLines (cs, d) (sectionLines (n, sec)) =
      (n, insertA d n (secFold ((lookupA d n).getD []) sec)) := by
  unfold sectionLines IniFile.loadLines
  simp only [List.foldl_cons, List.foldl_append]
  rw [show IniFile.loadLine (cs, d) (91 :: (n ++ [93])) = (n, d) from loadLine_header hn cs d]
  have hkeys := loadLines_keys (fun kv hkv => hs.2.2 kv hkv) n d
  unfold IniFile.loadLines at hkeys
  rw [hkeys, foldl_keys_insertA hs.2.1 n d]
  simp [loadLine_blank]

/-- Loading the entire saved line list builds the document by folding the
per-section reconstruction over the sections, in order. -/
theorem loadLines_saveLines {d : IniFile} (h : ∀ p ∈ d, goodName p.1 ∧ goodSec p.2) :
    ∀ cs acc, ∃ cs₁,
      IniFile.loadLines (cs, acc) (saveLinesSpec d) = (cs₁, buildDoc acc d) := by
  induction d with
  | nil => exact fun cs acc => ⟨cs, rfl⟩
  | cons p t ih =>
    intro cs acc
    unfold saveLinesSpec
    simp only [List.map_cons, List.flatten_cons]
    unfold IniFile.loadLines
    rw [List.foldl_append]
    have hsec := loadLines_section (h p (by simp)).1 (h p (by simp)).2 cs acc
    unfold IniFile.loadLines at hsec
    rw [hsec]
    obtain ⟨cs₁, hrec⟩ := ih (fun q hq => h q (by simp [hq])) p.1
      (insertA acc p.1 (secFold ((lookupA acc p.1).getD []) p.2))
    unfold IniFile.loadLines saveLinesSpec at hrec
    rw [hrec]
    exact ⟨cs₁, by simp [buildDoc]⟩

theorem lookupA_secFold {sec : IniSection} (hnd : (sec.map Prod.fst).Nodup)
    (hl : ∀ kv ∈ sec, IniFile.toLower kv.1 = kv.1) :
    ∀ (s0 : IniSection), (∀ kv ∈ sec, lookupA s0 kv.1 = none) →
    ∀ k, lookupA (secFold s0 sec) k =
      match lookupA sec k with
      | some v => some v
      | none => lookupA s0 k := by
  induction sec with
  | nil => intro s0 _ k; rfl
  | cons kv t ih =>
    intro s0 hdisj k
    have hnd₂ : kv.1 ∉ t.map Prod.fst ∧ (t.map Prod.fst).Nodup :=
      List.nodup_cons.mp (by simpa using hnd)
    have hset : IniSection.set s0 kv.1 kv.2 = insertA s0 kv.1 kv.2 := by
      unfold IniSection.set
      rw [hl kv (by simp)]
    have hstep : secFold s0 (kv :: t) = secFold (insertA s0 kv.1 kv.2) t := by
      simp [secFold, hset]
    rw [hstep, ih hnd₂.2
      (fun x hx => hl x (by simp [hx]))
      (insertA s0 kv.1 kv.2)
      (fun x hx => by
        rw [lookupA_insertA_ne _ _ (fun he =>
          hnd₂.1 (by rw [← he]; exact List.mem_map_of_mem Prod.fst hx))]
        exact hdisj x (by simp [hx]))]
    by_cases hk : kv.1 = k
    · subst hk
      have ht : lookupA t kv.1 = none := lookupA_eq_none_iff.mpr hnd₂.1
      rw [ht]
      simp [lookupA, lookupA_insertA_self]
    · have hcons : lookupA (kv :: t) k = lookupA t k := by simp [lookupA, hk]
      rw [hcons]
      cases lookupA t k with
      | some v => rfl
      | none => simp [lookupA_insertA_ne _ _ (Ne.symm hk)]

theorem lookupA_buildDoc {d : IniFile} (hnd : (d.map Prod.fst).Nodup) :
    ∀ (acc : IniFile), (∀ p ∈ d, lookupA acc p.1 = none) →
    ∀ s, lookupA (buildDoc acc d) s =
      match lookupA d s with
      | some sec => some (secFold [] sec)
      | none => lookupA acc s := by
  induction d with
  | nil => intro acc _ s; rfl
  | cons p t ih =>
    intro acc hdisj s
    have hpn : lookupA acc p.1 = none := hdisj p (by simp)
    have hnd₂ : p.1 ∉ t.map Prod.fst ∧ (t.map Prod.fst).Nodup :=
      List.nodup_cons.mp (by simpa using hnd)
    have hstep : buildDoc acc (p :: t) =
        buildDoc (insertA acc p.1 (secFold [] p.2)) t := by
      simp [buildDoc, hpn]
    rw [hstep, ih hnd₂.2
      (insertA acc p.1 (secFold [] p.2))
      (fun x hx => by
        rw [lookupA_insertA_ne _ _ (fun he =>
          hnd₂.1 (by rw [← he]; exact List.mem_map_of_mem Prod.fst hx))]
        exact hdisj x (by simp [hx]))]
    by_cases hs : p.1 = s
    · subst hs
      have ht : lookupA t p.1 = none := lookupA_eq_none_iff.mpr hnd₂.1
      rw [ht]
      simp [lookupA, lookupA_insertA_self]
    · have hcons : lookupA (p :: t) s = lookupA t s := by simp [lookupA, hs]
      rw [hcons]
      cases lookupA t s with
      | some v => rfl
      | none => simp [lookupA_insertA_ne _ _ (Ne.symm hs)]

end IniLib

/-! ## Line containment without newlines (for the save-format claim) -/

namespace IniLib

theorem sectionLines_noLF {p : Str × IniSection} (hn : (10 : Nat) ∉ p.1)
    (hs : ∀ kv ∈ p.2, (10 : Nat) ∉ kv.1 ∧ ∀ e ∈ kv.2, (10 : Nat) ∉ e) :
    ∀ l ∈ sectionLines p, (10 : Nat) ∉ l := by
  intro l hl
  unfold sectionLines at hl
  rcases List.mem_cons.mp hl with h₁ | h₂
  · subst h₁
    intro hm
    rcases List.mem_cons.mp hm with h₃ | h₄
    · omega
    · rcases List.mem_append.mp h₄ with h₅ | h₆
      · exact hn h₅
      · simp at h₆
  · rcases List.mem_append.mp h₂ with h₃ | h₄
    · obtain ⟨kv, hkv, hleq⟩ := List.mem_map.mp h₃
      subst hleq
      intro hm
      rcases List.mem_append.mp (by simpa using hm) with h₅ | h₆
      · exact (hs kv hkv).1 h₅
      · rcases mem_joinSep h₆ with ⟨e, he, hce⟩ | hd
        · exact (hs kv hkv).2 e he hce
        · simp at hd
    · simp only [List.mem_singleton] at h₄
      subst h₄
      simp

theorem getlineSplit_saveString_noLF {d : IniFile}
    (h : ∀ p ∈ d, (10 : Nat) ∉ p.1 ∧
      ∀ kv ∈ p.2, (10 : Nat) ∉ kv.1 ∧ ∀ e ∈ kv.2, (10 : Nat) ∉ e) :
    getlineSplit 10 (IniFile.saveString d) = saveLinesSpec d := by
  rw [saveString_eq_linesJoined]
  have h10 : ∀ l ∈ saveLinesSpec d, (10 : Nat) ∉ l := by
    intro l hl
    unfold saveLinesSpec at hl
    obtain ⟨ls, hls, hlmem⟩ := List.mem_flatten.mp hl
    obtain ⟨p, hp, hpe⟩ := List.mem_map.mp hls
    subst hpe
    exact sectionLines_noLF (h p hp).1 (h p hp).2 l hlmem
  have hmain := getlineSplit_linesJoined h10 []
  simpa [getlineSplit] using hmain

end IniLib

/-! ## The claims -/

namespace IniLib

/-- Claim C1, as stated, is false on the code: `save` joins the value
elements of `["1", "2"]` with `", "` (comma and space, via
`IniValue::getString`), not with `,` and no extra spacing as the claim
says, so for the document with section `s` and key `k` holding
`["1", "2"]` the saved bytes differ from the claimed `k=1,2` format
(`saveClaimed`). -/
theorem claim_C1_counterexample :
    IniFile.saveString [(strB "s", [(strB "k", [strB "1", strB "2"])])] ≠
      saveClaimed [(strB "s", [(strB "k", [strB "1", strB "2"])])] := by decide

/-- Claim C1 (amended): for every document whose section names, keys and
value elements contain no newline byte, `save` writes every section as a
`[name]` header line followed by one `key=` line per key — whose value
text is the elements joined with `", "` (comma and a space; a single
element as-is, an empty element list as empty text) — and a trailing
blank line after each section (`saveLinesSpec` gives exactly these lines);
and `save` returns `none` (the `return false` path, nothing written) when
the file cannot be opened. -/
theorem claim_C1_save (d : IniFile)
    (hLF : ∀ p ∈ d, (10 : Nat) ∉ p.1 ∧
      ∀ kv ∈ p.2, (10 : Nat) ∉ kv.1 ∧ ∀ e ∈ kv.2, (10 : Nat) ∉ e) :
    IniFile.save false d = none ∧
    IniFile.save true d = some (IniFile.saveString d) ∧
    getlineSplit 10 (IniFile.saveString d) = saveLinesSpec d :=
  ⟨rfl, rfl, getlineSplit_saveString_noLF hLF⟩

/-- Witness for C1's amended theorem at a concrete document. -/
theorem claim_C1_save_witness :
    getlineSplit 10 (IniFile.saveString [(strB "s", [(strB "k", [strB "1", strB "2"])])]) =
      saveLinesSpec [(strB "s", [(strB "k", [strB "1", strB "2"])])] :=
  (claim_C1_save [(strB "s", [(strB "k", [strB "1", strB "2"])])] (by decide)).2.2

/-- Claim C2, as stated, is false on the code: a `[...]` header line does
not implicitly create the section — after loading a file whose `[empty]`
header is followed by no key lines, `hasSection "empty"` is `false` and
the document is empty. -/
theorem claim_C2_counterexample :
    IniFile.hasSection (IniFile.loadString (strB "[empty]\n")) (strB "empty") = false ∧
    IniFile.loadString (strB "[empty]\n") = [] := by decide

/-- Claim C2 (amended): during `load`, every line of the form `[...]`
(after comment stripping and trimming: non-empty, first byte `[`, last
byte `]`) makes its inner text, trimmed and lower-cased, the current
section name — but the section is not created by the header line itself:
the sections map is unchanged (`st.2`), and the section only comes into
existence when a later key line stores into it. -/
theorem claim_C2_header (st : Str × IniFile) (raw l : Str)
    (hl : l = IniFile.trim (IniFile.removeComment raw))
    (hne : l ≠ []) (hh : l.head? = some 91) (hb : l.getLast? = some 93) :
    IniFile.loadLine st raw =
      (IniFile.toLower (IniFile.trim ((l.drop 1).dropLast)), st.2) := by
  subst hl
  simp only [IniFile.loadLine]
  rw [if_neg hne, if_pos ⟨hh, hb⟩]

/-- Witness for C2's amended theorem at a concrete header line. -/
theorem claim_C2_header_witness :
    IniFile.loadLine (strB "x", []) (strB "[A]") =
      (IniFile.toLower (IniFile.trim (((strB "[A]").drop 1).dropLast)), []) :=
  claim_C2_header (strB "x", []) (strB "[A]") (strB "[A]")
    (by decide) (by decide) (by decide) (by decide)

/-- Claim C3, as stated, is false on the code: a document with a section
holding no keys satisfies the claim's conditions vacuously (it has no
value elements at all), yet `save` followed by `load` loses the section —
`hasSection` flips from `true` to `false`, so the section sets differ. -/
theorem claim_C3_counterexample :
    (∀ p ∈ [(strB "s", ([] : IniSection))], ∀ kv ∈ p.2, ∀ e ∈ kv.2, goodElem e) ∧
    IniFile.hasSection [(strB "s", ([] : IniSection))] (strB "s") = true ∧
    IniFile.hasSection
      (IniFile.loadString (IniFile.saveString [(strB "s", ([] : IniSection))]))
      (strB "s") = false := by decide

/-- Claim C3 (amended): for every document in which every section has at
least one key, section names and keys are stored (lower-cased,
whitespace-trimmed) forms free of the bytes `,` `;` `#` `[` `]` `=` and of
CR/LF, value elements are non-empty, free of `,` `;` `#` `[` `]` CR LF and
of leading/trailing whitespace, and section names (resp. keys per section)
are pairwise distinct, `save` to a file and `load` of that file into a
fresh document reproduce an equal document: the same sections and, for
every section and key, the same stored value sequence (enumeration order
of the underlying hash maps may differ). -/
theorem claim_C3_roundTrip (d : IniFile) (h : goodDoc d) :
    (∀ s, IniFile.hasSection (IniFile.loadString (IniFile.saveString d)) s =
      IniFile.hasSection d s) ∧
    (∀ s k, getValRaw (IniFile.loadString (IniFile.saveString d)) s k =
      getValRaw d s k) := by
  have hsecs := h.2
  have hld : ∀ s, lookupA (IniFile.loadString (IniFile.saveString d)) s =
      match lookupA d s with
      | some sec => some (secFold [] sec)
      | none => none := by
    intro s
    unfold IniFile.loadString
    rw [getlineSplit_saveString hsecs]
    obtain ⟨cs₁, he⟩ := loadLines_saveLines hsecs [] ([] : IniFile)
    rw [he]
    have hb := lookupA_buildDoc h.1 ([] : IniFile) (fun p _ => rfl) s
    rw [hb]
    cases lookupA d s <;> rfl
  constructor
  · intro s
    unfold IniFile.hasSection
    rw [hld (IniFile.toLower s)]
    cases lookupA d (IniFile.toLower s) <;> rfl
  · intro s k
    unfold getValRaw
    rw [hld s]
    cases hls : lookupA d s with
    | none => rfl
    | some sec =>
      show lookupA (secFold [] sec) k = lookupA sec k
      have hmem : (s, sec) ∈ d := lookupA_mem hls
      have hgood := (hsecs _ hmem).2
      have hsf := lookupA_secFold hgood.1
        (fun kv hkv => ((hgood.2.2 kv hkv).1).1) [] (fun kv _ => rfl) k
      rw [hsf]
      cases lookupA sec k <;> rfl

/-- Witness for C3's amended theorem at a concrete document. -/
theorem claim_C3_roundTrip_witness :
    getValRaw
      (IniFile.loadString (IniFile.saveString [(strB "s", [(strB "k", [strB "a", strB "b"])])]))
      (strB "s") (strB "k") =
    getValRaw [(strB "s", [(strB "k", [strB "a", strB "b"])])] (strB "s") (strB "k") :=
  (claim_C3_roundTrip [(strB "s", [(strB "k", [strB "a", strB "b"])])] (by decide)).2
    (strB "s") (strB "k")

/-- Claim C4: for section or key names equal up to letter case (their
lower-casings agree), `get`, `set` and `hasKey` behave identically; and
an insert stores exactly the lower-cased forms of the names (last
conjunct: a `set` into an empty document produces the entry under the
lower-cased section and key names, so the original case is not
retained). -/
theorem claim_C4_case_insensitive (d : IniFile) (s₁ s₂ k₁ k₂ : Str)
    (v dflt : IniValue)
    (hs : IniFile.toLower s₁ = IniFile.toLower s₂)
    (hk : IniFile.toLower k₁ = IniFile.toLower k₂) :
    IniFile.get d s₁ k₁ dflt = IniFile.get d s₂ k₂ dflt ∧
    IniFile.set d s₁ k₁ v = IniFile.set d s₂ k₂ v ∧
    IniFile.hasKey d s₁ k₁ = IniFile.hasKey d s₂ k₂ ∧
    IniFile.set [] s₁ k₁ v =
      [(IniFile.toLower s₁, [(IniFile.toLower k₁, v)])] := by
  refine ⟨?_, ?_, ?_, rfl⟩
  · unfold IniFile.get IniSection.get
    rw [hs, hk]
  · unfold IniFile.set IniSection.set
    rw [hs, hk]
  · unfold IniFile.hasKey IniSection.hasKey
    rw [hs, hk]

/-- Witness for C4 at names differing only in case. -/
theorem claim_C4_case_insensitive_witness :
    IniFile.set [] (strB "Sec") (strB "Key") [strB "v"] =
      IniFile.set [] (strB "sEC") (strB "kEY") [strB "v"] :=
  (claim_C4_case_insensitive [] (strB "Sec") (strB "sEC") (strB "Key") (strB "kEY")
    [strB "v"] [] (by decide) (by decide)).2.1

/-- Claim C5: `removeComment` truncates at the first occurrence of `;`
(59) or `#` (35) — whichever of the two occurs first, i.e. at the first
byte that is either — and returns the line unchanged when neither
occurs. -/
theorem claim_C5_removeComment (s : Str) :
    (∀ i, findIdxO (fun c => c == 59 || c == 35) s = some i →
      IniFile.removeComment s = s.take i) ∧
    (findIdxO (fun c => c == 59 || c == 35) s = none →
      IniFile.removeComment s = s) := by
  constructor
  · intro i hi
    unfold IniFile.removeComment
    rw [minNpos_findIdxO, hi]
  · intro hn
    unfold IniFile.removeComment
    rw [minNpos_findIdxO, hn]

/-- Witness for C5 on a line with a comment and one without. -/
theorem claim_C5_removeComment_witness :
    IniFile.removeComment (strB "a#b;c") = (strB "a#b;c").take 1 ∧
    IniFile.removeComment (strB "ab") = strB "ab" :=
  ⟨(claim_C5_removeComment (strB "a#b;c")).1 1 (by decide),
   (claim_C5_removeComment (strB "ab")).2 (by decide)⟩

/-- Claim C6: for a non-empty, non-header line (after comment stripping
and trimming), `load` ignores the line when it contains no `=` (61), and
otherwise splits at the first `=`: the left side trimmed and lower-cased
is the key, the right side trimmed is split on `,` (44) with each chunk
additionally trimmed, and the result is stored in the current section via
`IniSection::set`. -/
theorem claim_C6_key_line (st : Str × IniFile) (raw l : Str)
    (hl : l = IniFile.trim (IniFile.removeComment raw))
    (hne : l ≠ [])
    (hhdr : ¬(l.head? = some 91 ∧ l.getLast? = some 93)) :
    ((61 : Nat) ∉ l → IniFile.loadLine st raw = st) ∧
    (∀ p, findIdxO (fun c => c == 61) l = some p →
      IniFile.loadLine st raw =
        (st.1, insertA st.2 st.1 (IniSection.set ((lookupA st.2 st.1).getD [])
          (IniFile.toLower (IniFile.trim (l.take p)))
          ((getlineSplit 44 (IniFile.trim (l.drop (p + 1)))).map IniFile.trim)))) := by
  subst hl
  constructor
  · intro h61
    have hno : ∀ c ∈ IniFile.trim (IniFile.removeComment raw),
        (fun c => c == 61) c = false := by
      intro c hc
      simp only [beq_eq_false_iff_ne]
      exact fun he => h61 (he ▸ hc)
    simp only [IniFile.loadLine]
    rw [if_neg hne, if_neg hhdr, findIdxO_eq_none hno]
  · intro p hp
    simp only [IniFile.loadLine]
    rw [if_neg hne, if_neg hhdr, hp]
    rfl

/-- Witness for C6 on a concrete key line with spacing and two value
elements. -/
theorem claim_C6_key_line_witness :
    IniFile.loadLine (strB "s", []) (strB "K = a , b") =
      (strB "s", insertA [] (strB "s") (IniSection.set ((lookupA ([] : IniFile) (strB "s")).getD [])
        (IniFile.toLower (IniFile.trim ((strB "K = a , b").take 2)))
        ((getlineSplit 44 (IniFile.trim ((strB "K = a , b").drop 3))).map IniFile.trim))) :=
  (claim_C6_key_line (strB "s", []) (strB "K = a , b") (strB "K = a , b")
    (by decide) (by decide) (by decide)).2 2 (by decide)

/-- Claim C7: the textual representation of a value (`getString`) is the
empty string for zero elements, the single element itself for one, and
the elements joined with the two-byte separator `", "` (44, 32) for more
than one — in particular `["1", "2"]` reads back as `"1, 2"`. -/
theorem claim_C7_getString (vs : IniValue) (e : Str) :
    IniValue.getString [] = [] ∧
    IniValue.getString [e] = e ∧
    (1 < vs.length → IniValue.getString vs = joinSep [44, 32] vs) ∧
    IniValue.getString [strB "1", strB "2"] = strB "1, 2" :=
  ⟨rfl, rfl, fun _ => getString_eq_joinSep vs, by decide⟩

/-- Witness for C7 at the two-element value of the claim's scenario. -/
theorem claim_C7_getString_witness :
    IniValue.getString [strB "1", strB "2"] = joinSep [44, 32] [strB "1", strB "2"] :=
  (claim_C7_getString [strB "1", strB "2"] (strB "x")).2.2.1 (by decide)

/-- Claim C8: `getAs` fails (models the thrown `IniValueConvertException`
as `none`) exactly when the value has no elements or decoding element 0
fails; when element 0 decodes, it returns exactly that decode.  The
embedding is a pure function of the value, mirroring that the C++ method
is `const` and leaves the `IniValue` unchanged. -/
theorem claim_C8_getAs {τ : Type} (dec : Str → Option τ) (v : IniValue) :
    (IniValue.getAs dec v = none ↔
      v.length = 0 ∨ ∃ e, v.head? = some e ∧ dec e = none) ∧
    (∀ e x, v.head? = some e → dec e = some x → IniValue.getAs dec v = some x) := by
  cases v with
  | nil =>
    refine ⟨by simp [IniValue.getAs], by simp⟩
  | cons a t =>
    constructor
    · simp [IniValue.getAs]
    · intro e x he hx
      simp only [List.head?_cons, Option.some.injEq] at he
      subst he
      simpa [IniValue.getAs] using hx

/-- Witness for C8 at a concrete decoder and value. -/
theorem claim_C8_getAs_witness :
    IniValue.getAs (fun s => some s.length) [strB "ab"] = some 2 :=
  (claim_C8_getAs (fun s => some s.length) [strB "ab"]).2 (strB "ab") 2 rfl (by decide)

/-- Claim C9: the built-in converters round-trip their representative
inputs to canonical form: boolean `"true"` decodes to `true` and encodes
back to `"true"`; integer `"0xA"` is auto-detected as hexadecimal,
decodes to `10`, and re-encodes in canonical decimal as `"10"`; likewise
for the char, short, long, string and C-string converters on
representative inputs — every built-in converter except the
floating-point pair `float`/`double`, which is not modelled. -/
theorem claim_C9_converters :
    boolDecode (strB "true") = some true ∧
    boolEncode true = strB "true" ∧
    intDecode (strB "0xA") = some 10 ∧
    intEncode 10 = strB "10" ∧
    (boolDecode (strB "true")).map boolEncode = some (strB "true") ∧
    (intDecode (strB "0xA")).map intEncode = some (strB "10") ∧
    (charDecode (strB "a")).map charEncode = some (strB "a") ∧
    (stringDecode (strB "hello")).map stringEncode = some (strB "hello") ∧
    (shortDecode (strB "0xA")).map shortEncode = some (strB "10") ∧
    longDecode (strB "0xA") = some 10 ∧
    (longDecode (strB "0xA")).map longEncode = some (strB "10") ∧
    (constCharDecode (strB "hello")).map constCharEncode = some (strB "hello") := by decide

/-- Claim C10: `clearSection` leaves the document with a section stored
under the lower-cased name holding zero keys, whether or not the section
existed before — on an absent section it creates the (empty) section
rather than leaving the document unchanged, so `hasSection` is `true`
afterwards and `keyCount` is `0`. -/
theorem claim_C10_clearSection (d : IniFile) (s : Str) :
    IniFile.hasSection (IniFile.clearSection d s) s = true ∧
    IniFile.keyCount (IniFile.clearSection d s) s = 0 ∧
    lookupA (IniFile.clearSection d s) (IniFile.toLower s) = some [] := by
  have h := lookupA_insertA_self d (IniFile.toLower s) ([] : IniSection)
  refine ⟨?_, ?_, h⟩
  · simp [IniFile.hasSection, IniFile.clearSection, h]
  · simp [IniFile.keyCount, IniFile.clearSection, h, IniSection.keyCount]

end IniLib
